import Mathlib

/-!
Shallow embedding of the resin-device-operations pipeline
(src/build/utils.js, src/build/commands.js, src/lib/action.coffee,
src/build/operations.js), followed by theorems checking the
natural-language specification against it.

Modelling conventions:
* JS scalar option values (string or number) become the `Value` type;
  strict (`===`-style) equality is `Value` equality, so `num 1 ≠ str "1"`.
* JS objects used as flat string-keyed maps become association lists
  `List (String × Value)`; an absent object (e.g. a missing `when`
  property) becomes `none` of an `Option`.
* Promise rejection / thrown errors become `Except String`.
* The event stream produced by `operations.execute` becomes an explicit
  trace (a `List` of items); the instant an operation's deferred promise
  is invoked is recorded as an `Item.invoke` marker so that ordering
  between event emission and step invocation is expressible.
* External I/O primitives (fs.stat, fs.createReadStream,
  imageWrite.write, child_process.spawn, imagefs.copy/replace) are not
  executed; each handler returns the exact call it would delegate,
  together with the (possibly mutated) operation record.
-/

namespace Resin

/-- A JS scalar option value: a string or a number.  Equality of
`Value`s is strict: a number never equals a string. -/
inductive Value
  | str : String → Value
  | num : Int → Value
deriving DecidableEq

/-- A flat string-keyed map of option values, as an association list. -/
abbrev Options := List (String × Value)

/-- A partition/path descriptor as used by the `copy` and `replace`
commands (`operation.from`, `operation.to`, `operation.file`); `image`
is the descriptor's optional image reference, `path` stands for the
remaining payload. -/
structure Descriptor where
  image : Option String := none
  path : String := ""
deriving DecidableEq

/-- An operation record.  `command` and the optional `when` map drive
the pipeline; the remaining fields are the command-specific payload
(`from`/`to` for `copy`, `file`/`find`/`replace` for `replace`,
`script`/`arguments` for `run-script`, `image` for `burn`).  `from` is
a Lean keyword, hence the `from_`/`to_` spellings. -/
structure Operation where
  command : String
  when : Option Options := none
  from_ : Descriptor := {}
  to_ : Descriptor := {}
  file : Descriptor := {}
  find : String := ""
  replace : String := ""
  script : String := ""
  arguments : Option (List String) := none
  image : Option String := none
deriving DecidableEq

namespace utils

/-- The completion signal a stream handle can deliver: the first
`error`, `end`, `done` or `close` event observed by
`waitStreamToClose`'s listeners. -/
inductive StreamSignal
  | errorSig (e : String)
  | endSig
  | doneSig
  | close (code : Option Int)
deriving DecidableEq

/-- src/build/utils.js `waitStreamToClose`: resolves on `end`, `done`,
or `close` with a null/zero code; rejects on `error` or on `close`
with a non-zero code. -/
def waitStreamToClose : StreamSignal → Except String Unit
  | .errorSig e => .error e
  | .endSig => .ok ()
  | .doneSig => .ok ()
  | .close code =>
    match code with
    | some c => if c ≠ 0 then .error ("Exitted with error code: " ++ toString c) else .ok ()
    | none => .ok ()

/-- src/build/utils.js `isObjectSubset(object, subset)`: true when
`subset` is empty or absent, otherwise true iff every key of `subset`
occurs in `object` with a strictly equal value (lodash `_.findWhere`
on the one-element list `[object]`). -/
def isObjectSubset (object : Options) (subset : Option Options) : Bool :=
  match subset with
  | none => true
  | some s =>
    if s.isEmpty then true
    else s.all fun kv => object.lookup kv.1 == some kv.2

/-- src/build/utils.js `filterWhenMatches`: keep the operations whose
`when` is a subset of `options`. -/
def filterWhenMatches (operations : List Operation) (options : Options) :
    List Operation :=
  operations.filter fun operation => isObjectSubset options operation.when

/-- lodash `_.uniq`: drop duplicates, keeping the first occurrence of
each element. -/
def uniqAux : List String → List String → List String
  | [], _ => []
  | x :: xs, seen =>
    if x ∈ seen then uniqAux xs seen else x :: uniqAux xs (x :: seen)

/-- lodash `_.uniq` (first-seen order). -/
def uniq (l : List String) : List String := uniqAux l []

/-- src/build/utils.js `getMissingOptions`: the distinct keys used by
any operation's `when`, in first-seen order, minus the keys present in
`options`. -/
def getMissingOptions (operations : List Operation) (options : Options) :
    List String :=
  let usedOptions :=
    (operations.map fun operation => (operation.when.getD []).map Prod.fst).flatten
  uniq (usedOptions.filter fun k => !(options.map Prod.fst).contains k)

/-- src/build/utils.js `getOperatingSystem`: `os.platform()`, with
`darwin` renamed to `osx`; the platform string is passed in as a
parameter since it is read from the environment. -/
def getOperatingSystem (platform : String) : String :=
  if platform == "darwin" then "osx" else platform

end utils

/-- Node's `path.join` for the plain `image`/`script` segments the
`run-script` handler feeds it. -/
def pathJoin (a b : String) : String := a ++ "/" ++ b

namespace commands

/-- An I/O side effect performed by the `burn` handler, in order. -/
inductive IOEffect
  | stat (p : String)
  | openReadStream (p : String)
  | writeImage (drive : Value) (p : String)
deriving DecidableEq

/-- src/build/commands.js `copy`: default each descriptor's missing
`image` to the pipeline image (mutating the operation record), then
delegate `imagefs.copy(operation.from, operation.to)`.  Returns the
post-mutation operation and the delegated call's arguments. -/
def copy (image : String) (operation : Operation) :
    Operation × (Descriptor × Descriptor) :=
  let operation :=
    if operation.from_.image = none then
      { operation with from_ := { operation.from_ with image := some image } }
    else operation
  let operation :=
    if operation.to_.image = none then
      { operation with to_ := { operation.to_ with image := some image } }
    else operation
  (operation, (operation.from_, operation.to_))

/-- src/build/commands.js `replace`: default `operation.file.image`,
then delegate `imagefs.replace(operation.file, operation.find,
operation.replace)`. -/
def replace (image : String) (operation : Operation) :
    Operation × (Descriptor × String × String) :=
  let operation :=
    if operation.file.image = none then
      { operation with file := { operation.file with image := some image } }
    else operation
  (operation, (operation.file, operation.find, operation.replace))

/-- src/build/commands.js `run-script`: rewrite `operation.script` to
`path.join(image, operation.script)`, default a missing `arguments` to
`[]`, chmod the script, then spawn it.  Returns the post-mutation
operation and the `(script, arguments)` pair passed to
`child_process.spawn`. -/
def runScript (image : String) (operation : Operation) :
    Operation × (String × List String) :=
  let operation := { operation with script := pathJoin image operation.script }
  let operation :=
    if operation.arguments = none then { operation with arguments := some [] }
    else operation
  (operation, (operation.script, operation.arguments.getD []))

/-- src/build/commands.js `burn`: default a missing `operation.image`
to the pipeline image, then fail with `Missing drive option` when no
`drive` option is available (before any I/O), otherwise stat the
image, open a read stream on it and delegate to
`imageWrite.write(options.drive, stream)`.  Returns the post-mutation
operation, the ordered I/O effects performed, and the outcome. -/
def burn (image : String) (operation : Operation) (options : Option Options) :
    Operation × List IOEffect × Except String Unit :=
  let operation :=
    if operation.image = none then { operation with image := some image }
    else operation
  match options.bind fun o => o.lookup "drive" with
  | none => (operation, [], .error "Missing drive option")
  | some d =>
    let imgPath := operation.image.getD image
    (operation,
      [IOEffect.stat imgPath, IOEffect.openReadStream imgPath,
        IOEffect.writeImage d imgPath],
      .ok ())

/-- The command names registered in src/build/commands.js. -/
def commandNames : List String := ["copy", "replace", "run-script", "burn"]

end commands

namespace action

/-- Round a rational to one decimal place, as JS
`parseFloat(x.toFixed(1))` does for the in-range values produced by
the progress formula. -/
def round1 (x : ℚ) : ℚ := ((round (x * 10) : ℤ) : ℚ) / 10

/-- src/lib/action.coffee `getOperationProgress(index, operations)`:
`(index + 1) / operations.length * 100`, rounded to one decimal. -/
def getOperationProgress (index : ℕ) (operations : List Operation) : ℚ :=
  round1 ((index + 1) / (operations.length : ℚ) * 100)

/-- src/lib/action.coffee `run`: resolve `operation.command` in the
command registry, throwing `Unknown command: …` when absent; on
success the handler is only bound (`_.partial`), not executed, so the
model records success of resolution. -/
def run (operation : Operation) : Except String Unit :=
  if operation.command ∈ commands.commandNames then .ok ()
  else .error ("Unknown command: " ++ operation.command)

end action

namespace operations

/-- An output-channel event a single step can emit while it runs:
`stdout`/`stderr` data, or a `burn` progress payload republished from
the handler's `progress` events. -/
inductive OutputEvent
  | stdout (data : String)
  | stderr (data : String)
  | burnEv (payload : String)
deriving DecidableEq

/-- An event on the outward emitter of `operations.execute`. -/
inductive Event
  | state (operation : Operation) (percentage : ℚ)
  | stdout (data : String)
  | stderr (data : String)
  | burnEv (payload : String)
  | errorEv (message : String)
  | endEv
deriving DecidableEq

/-- Inject an output-channel event into the outward event type. -/
def OutputEvent.toEvent : OutputEvent → Event
  | .stdout d => Event.stdout d
  | .stderr d => Event.stderr d
  | .burnEv p => Event.burnEv p

/-- One item of the instrumented run trace: either an event emitted on
the outward emitter, or the internal instant at which step `n`'s
deferred promise is invoked (`promise()` in `execute`). -/
inductive Item
  | ev (e : Event)
  | invoke (n : ℕ)
deriving DecidableEq

/-- The outward events of an instrumented trace, with the `invoke`
markers erased. -/
def outwardTrace (items : List Item) : List Event :=
  items.filterMap fun item =>
    match item with
    | .ev e => some e
    | .invoke _ => none

/-- The observable behaviour of one executed step, abstracting the
external handler: the output-channel events it emits while running,
and its completion result — `promise()` rejection or
`waitStreamToClose` rejection both appear as `.error`. -/
structure StepOutcome where
  output : List OutputEvent
  result : Except String Unit

/-- underscore.string `_.str.toSentence`: joins with `, ` and a final
` and `. -/
def toSentence : List String → String
  | [] => ""
  | [x] => x
  | [x, y] => x ++ " and " ++ y
  | x :: rest => x ++ ", " ++ toSentence rest

/-- The options after `execute`'s defaulting step: `options.os` is
filled from `utils.getOperatingSystem()` when absent. -/
def effectiveOptions (platform : String) (options : Options) : Options :=
  if options.lookup "os" = none then
    options ++ [("os", Value.str (utils.getOperatingSystem platform))]
  else options

/-- The eager `_.map(operations, action.run)` of `execute`: dispatch
every filtered operation before any step runs, throwing at the first
unknown command. -/
def dispatchAll : List Operation → Except String Unit
  | [] => .ok ()
  | operation :: rest =>
    if operation.command ∈ commands.commandNames then dispatchAll rest
    else .error ("Unknown command: " ++ operation.command)

/-- The `Promise.each` loop of `execute` over the filtered operations
`rest`, starting at index `i` of the full filtered list `allOps`: for
each step, emit its `state` event, invoke its promise, republish its
output events, then either stop with a single `error` event or
continue; after the last step emit `end` and set the emitter's `ended`
flag (the returned `Bool`). -/
def runSteps (allOps : List Operation) (behavior : ℕ → StepOutcome) :
    List Operation → ℕ → List Item × Bool
  | [], _ => ([Item.ev Event.endEv], true)
  | operation :: rest, i =>
    let st := behavior i
    let pre :=
      Item.ev (Event.state operation (action.getOperationProgress i allOps)) ::
        Item.invoke i :: st.output.map fun e => Item.ev e.toEvent
    match st.result with
    | .error msg => (pre ++ [Item.ev (Event.errorEv msg)], false)
    | .ok () =>
      let r := runSteps allOps behavior rest (i + 1)
      (pre ++ r.1, r.2)

/-- src/build/operations.js `execute`: default `options.os`, throw
synchronously (`Except.error`, before any emitter exists) when
`getMissingOptions` is non-empty, otherwise filter the operations,
eagerly dispatch each one (an unknown command yields a single `error`
event and no step runs), then run the steps sequentially.  The result
pairs the instrumented trace with the emitter's final `ended` flag;
each step's external behaviour is supplied by the oracle `behavior`. -/
def execute (platform image : String) (operations : List Operation)
    (options : Options) (behavior : ℕ → StepOutcome) :
    Except String (List Item × Bool) :=
  let options := effectiveOptions platform options
  let missingOptions := utils.getMissingOptions operations options
  if missingOptions.isEmpty then
    let filtered := utils.filterWhenMatches operations options
    match dispatchAll filtered with
    | .error msg => .ok ([Item.ev (Event.errorEv msg)], false)
    | .ok () => .ok (runSteps filtered behavior filtered 0)
  else
    .error ("Missing options: " ++ toSentence missingOptions)

/-- The patched `emitter.on` of `execute`, as observed by a subscriber
arriving after the run has terminated: the callback is invoked
immediately iff the event is `end` and the emitter's `ended` flag was
set (which only a successful run does); otherwise the subscription is
merely registered and, the run being terminal, never fires. -/
def lateSubscribeInvoked (ended : Bool) (event : String) : Bool :=
  event == "end" && ended

/-- Whether an outward event is a `state` event. -/
def isState : Event → Bool
  | .state _ _ => true
  | _ => false

/-- A step-behaviour oracle whose every step emits no output and
completes successfully. -/
def trivialBehavior : ℕ → StepOutcome := fun _ => ⟨[], .ok ()⟩

/-- Specification-side description of the instrumented trace of a run
whose steps from index `i` on all complete successfully: for each
remaining operation, its `state` event, its invocation marker and its
output events, and a final `end` event. -/
def successItems (allOps : List Operation) (behavior : ℕ → StepOutcome) :
    List Operation → ℕ → List Item
  | [], _ => [Item.ev Event.endEv]
  | operation :: rest, i =>
    Item.ev (Event.state operation (action.getOperationProgress i allOps)) ::
      Item.invoke i ::
      (((behavior i).output.map fun e => Item.ev e.toEvent) ++
        successItems allOps behavior rest (i + 1))

end operations

/-- A concrete two-operation list (no `when` clauses) used to
instantiate universally quantified theorems. -/
def sampleOps : List Operation :=
  [{ command := "copy" }, { command := "replace" }]

/-- A concrete operation list whose single operation requires the
`foo` option. -/
def opsMissing : List Operation :=
  [{ command := "copy", when := some [("foo", Value.num 1)] }]

/-- A concrete operation list with a valid `copy` operation followed
by an operation naming an unregistered command. -/
def opsUnknown : List Operation :=
  [{ command := "copy" }, { command := "bogus" }]

open operations

/-- C8: for every stream handle, a `close` signal with a non-zero code
rejects the completion with an error naming that code; `close` with
code 0 or no code, `end`, and `done` all resolve it; an `error` signal
rejects with the given error. -/
theorem waitStreamToClose_signals :
    (∀ c : Int, c ≠ 0 →
      utils.waitStreamToClose (.close (some c)) =
        .error ("Exitted with error code: " ++ toString c)) ∧
    utils.waitStreamToClose (.close (some 0)) = .ok () ∧
    utils.waitStreamToClose (.close none) = .ok () ∧
    utils.waitStreamToClose .endSig = .ok () ∧
    utils.waitStreamToClose .doneSig = .ok () ∧
    (∀ e, utils.waitStreamToClose (.errorSig e) = .error e) := by
  refine ⟨fun c hc => ?_, rfl, rfl, rfl, rfl, fun e => rfl⟩
  simp [utils.waitStreamToClose, hc]

/-- Witness for C8 at the concrete exit code 3. -/
theorem waitStreamToClose_signals_witness :
    utils.waitStreamToClose (.close (some 3)) =
      .error "Exitted with error code: 3" :=
  waitStreamToClose_signals.1 3 (by decide)

/-- C7: a `burn` invocation with no options map or no `drive` key
fails with `Missing drive option` and performs no I/O effect — the
image is neither stat'ed nor opened as a read stream. -/
theorem burn_missing_drive (image : String) (operation : Operation)
    (options : Option Options)
    (h : (options.bind fun o => o.lookup "drive") = none) :
    (commands.burn image operation options).2 =
      ([], .error "Missing drive option") := by
  simp only [commands.burn, h]

/-- Witness for C7: a concrete `burn` operation with no options map. -/
theorem burn_missing_drive_witness :
    (commands.burn "img" { command := "burn" } none).2 =
      ([], .error "Missing drive option") :=
  burn_missing_drive "img" { command := "burn" } none rfl

/-- C10: the `run-script` handler spawns exactly
`path.join(image, operation.script)` with the operation's arguments,
defaulting a missing `arguments` field to the empty list before the
spawn. -/
theorem runScript_spawn (image : String) (operation : Operation) :
    (commands.runScript image operation).2.1 = pathJoin image operation.script ∧
    (commands.runScript image operation).2.2 = operation.arguments.getD [] ∧
    (commands.runScript image operation).1.arguments =
      some (operation.arguments.getD []) := by
  cases h : operation.arguments <;> simp [commands.runScript, h]

/-- C2: `filterWhenMatches` keeps exactly the operations whose `when`
keys all occur in the options with strictly equal values; an absent or
empty `when` is always kept; a non-empty `when` never matches empty
options; and strict equality distinguishes the number 1 from the
string "1". -/
theorem filterWhenMatches_spec :
    (∀ (ops : List Operation) (options : Options),
      utils.filterWhenMatches ops options = ops.filter fun operation =>
        match operation.when with
        | none => true
        | some w => w.all fun kv => options.lookup kv.1 == some kv.2) ∧
    (∀ options : Options, utils.isObjectSubset options none = true) ∧
    (∀ options : Options, utils.isObjectSubset options (some []) = true) ∧
    (∀ w : Options, w ≠ [] → utils.isObjectSubset [] (some w) = false) ∧
    utils.isObjectSubset [("foo", Value.num 1)]
      (some [("foo", Value.str "1")]) = false := by
  have hsub : ∀ (o : Options) (s : Option Options),
      utils.isObjectSubset o s = match s with
        | none => true
        | some w => w.all fun kv => o.lookup kv.1 == some kv.2 := by
    intro o s
    match s with
    | none => rfl
    | some [] => rfl
    | some (kv :: rest) => rfl
  refine ⟨fun ops options => ?_, fun options => rfl, fun options => rfl,
    fun w hw => ?_, by decide⟩
  · unfold utils.filterWhenMatches
    exact List.filter_congr fun operation _ => hsub options operation.when
  · match w, hw with
    | kv :: rest, _ => simp [hsub, List.lookup]

/-- Witness for C2: a concrete non-empty `when` against empty
options. -/
theorem filterWhenMatches_spec_witness :
    utils.isObjectSubset [] (some [("a", Value.num 1)]) = false :=
  filterWhenMatches_spec.2.2.2.1 [("a", Value.num 1)] (by decide)

/-- Counterexample for C9: the `run-script` handler mutates fields
that are not a defaulted `image` reference of a nested descriptor —
it rewrites `script` to `path.join(image, script)` and fills a missing
`arguments` with `[]`. -/
theorem runScript_mutates_other_fields :
    (commands.runScript "img"
        { command := "run-script", script := "install.sh" }).1.script ≠
      "install.sh" ∧
    (commands.runScript "img"
        { command := "run-script", script := "install.sh" }).1.arguments ≠
      (none : Option (List String)) := by
  constructor <;> decide

/-- C9 (amended): each handler's exact effect on the operation record
— `copy` defaults `from.image` and `to.image`, `replace` defaults
`file.image`, `burn` defaults the top-level `image`, and `run-script`
rewrites `script` to `path.join(image, script)` and defaults a missing
`arguments` to `[]`; every other field is unchanged. -/
theorem handlers_mutation (image : String) (operation : Operation)
    (options : Option Options) :
    (commands.copy image operation).1 =
      { operation with
        from_ :=
          { operation.from_ with image := some (operation.from_.image.getD image) },
        to_ :=
          { operation.to_ with image := some (operation.to_.image.getD image) } } ∧
    (commands.replace image operation).1 =
      { operation with
        file :=
          { operation.file with image := some (operation.file.image.getD image) } } ∧
    (commands.runScript image operation).1 =
      { operation with
        script := pathJoin image operation.script,
        arguments := some (operation.arguments.getD []) } ∧
    (commands.burn image operation options).1 =
      { operation with image := some (operation.image.getD image) } := by
  obtain ⟨cmd, whn, ⟨fi, fp⟩, ⟨ti, tp⟩, ⟨fli, flp⟩, fnd, rpl, scr, args, img⟩ :=
    operation
  refine ⟨?_, ?_, ?_, ?_⟩
  · cases fi <;> cases ti <;> simp [commands.copy]
  · cases fli <;> simp [commands.replace]
  · cases args <;> simp [commands.runScript]
  · cases img <;>
      cases h : (options.bind fun o => o.lookup "drive") <;>
        simp [commands.burn, h]

/-- Rounding to one decimal is monotone. -/
theorem round1_mono {x y : ℚ} (h : x ≤ y) : action.round1 x ≤ action.round1 y := by
  unfold action.round1
  have hr : round (x * 10) ≤ round (y * 10) := by
    rw [round_eq, round_eq]
    exact Int.floor_mono (by linarith)
  have hc : ((round (x * 10) : ℤ) : ℚ) ≤ ((round (y * 10) : ℤ) : ℚ) := by
    exact_mod_cast hr
  linarith

/-- C3: the `state` percentage of step `i` out of `N` operations is
`(i + 1) / N * 100` rounded to one decimal, the percentage is
monotonically increasing across the steps of one run, and the last
step's percentage is exactly 100. -/
theorem getOperationProgress_spec (i j : ℕ) (operations : List Operation)
    (hij : i ≤ j) (hj : j < operations.length) :
    action.getOperationProgress i operations =
      ((round (((i : ℚ) + 1) / (operations.length : ℚ) * 100 * 10) : ℤ) : ℚ) / 10 ∧
    action.getOperationProgress i operations ≤
      action.getOperationProgress j operations ∧
    action.getOperationProgress (operations.length - 1) operations = 100 := by
  have hN : 0 < operations.length := Nat.lt_of_le_of_lt (Nat.zero_le j) hj
  have hNQ : (0 : ℚ) < (operations.length : ℚ) := by exact_mod_cast hN
  refine ⟨rfl, ?_, ?_⟩
  · apply round1_mono
    have h1 : ((i : ℚ) + 1) ≤ (j : ℚ) + 1 := by
      have hq : (i : ℚ) ≤ (j : ℚ) := by exact_mod_cast hij
      linarith
    have h2 : ((i : ℚ) + 1) / (operations.length : ℚ) ≤
        ((j : ℚ) + 1) / (operations.length : ℚ) :=
      (div_le_div_iff_of_pos_right hNQ).mpr h1
    nlinarith
  · unfold action.getOperationProgress
    have h1 : ((operations.length - 1 : ℕ) : ℚ) + 1 = (operations.length : ℚ) := by
      have h2 : (operations.length - 1) + 1 = operations.length :=
        Nat.succ_pred_eq_of_pos hN
      exact_mod_cast congrArg (fun n : ℕ => (n : ℚ)) h2
    rw [h1, div_self (ne_of_gt hNQ), one_mul]
    unfold action.round1
    have h3 : round ((100 : ℚ) * 10) = (1000 : ℤ) := by
      rw [show (100 : ℚ) * 10 = ((1000 : ℤ) : ℚ) by norm_num]
      exact round_intCast 1000
    rw [h3]
    norm_num

/-- Witness for C3: on a concrete two-operation run, step 0's
percentage is at most step 1's and the last step's percentage is
exactly 100. -/
theorem getOperationProgress_spec_witness :
    action.getOperationProgress 0 sampleOps ≤
      action.getOperationProgress 1 sampleOps ∧
    action.getOperationProgress (sampleOps.length - 1) sampleOps = 100 :=
  ⟨(getOperationProgress_spec 0 1 sampleOps (by decide) (by decide)).2.1,
    (getOperationProgress_spec 0 1 sampleOps (by decide) (by decide)).2.2⟩

theorem outwardTrace_nil : outwardTrace [] = [] := rfl

theorem outwardTrace_ev (e : Event) (l : List Item) :
    outwardTrace (Item.ev e :: l) = e :: outwardTrace l := rfl

theorem outwardTrace_invoke (n : ℕ) (l : List Item) :
    outwardTrace (Item.invoke n :: l) = outwardTrace l := rfl

theorem outwardTrace_append (l₁ l₂ : List Item) :
    outwardTrace (l₁ ++ l₂) = outwardTrace l₁ ++ outwardTrace l₂ :=
  List.filterMap_append l₁ l₂ _

theorem outwardTrace_map_output (l : List OutputEvent) :
    outwardTrace (l.map fun e => Item.ev e.toEvent) =
      l.map OutputEvent.toEvent := by
  induction l with
  | nil => rfl
  | cons x xs ih => simp only [List.map_cons, outwardTrace_ev, ih]

theorem toEvent_isState (e : OutputEvent) : isState e.toEvent = false := by
  cases e <;> rfl

theorem toEvent_ne_endEv (e : OutputEvent) : e.toEvent ≠ Event.endEv := by
  cases e <;> simp [OutputEvent.toEvent]

theorem toEvent_ne_errorEv (e : OutputEvent) (m : String) :
    e.toEvent ≠ Event.errorEv m := by
  cases e <;> simp [OutputEvent.toEvent]

theorem output_filter_isState (l : List OutputEvent) :
    (l.map OutputEvent.toEvent).filter isState = [] := by
  induction l with
  | nil => rfl
  | cons x xs ih => simp [List.filter_cons, toEvent_isState, ih]

theorem output_no_endEv (l : List OutputEvent) :
    Event.endEv ∉ l.map OutputEvent.toEvent := by
  intro h
  obtain ⟨e, _, he⟩ := List.mem_map.mp h
  exact toEvent_ne_endEv e he

theorem output_no_errorEv (l : List OutputEvent) (m : String) :
    Event.errorEv m ∉ l.map OutputEvent.toEvent := by
  intro h
  obtain ⟨e, _, he⟩ := List.mem_map.mp h
  exact toEvent_ne_errorEv e m he

theorem getMissingOptions_of_when_none (ops : List Operation) (o : Options)
    (h : ∀ op ∈ ops, op.when = none) : utils.getMissingOptions ops o = [] := by
  unfold utils.getMissingOptions
  have hflat :
      (ops.map fun operation => (operation.when.getD []).map Prod.fst).flatten =
        ([] : List String) := by
    induction ops with
    | nil => rfl
    | cons op rest ih =>
      simp only [List.map_cons, List.flatten_cons, h op (List.mem_cons_self _ _),
        Option.getD_none, List.map_nil, List.nil_append]
      exact ih fun x hx => h x (List.mem_cons_of_mem _ hx)
  rw [hflat]
  rfl

theorem filterWhenMatches_of_when_none (ops : List Operation) (o : Options)
    (h : ∀ op ∈ ops, op.when = none) : utils.filterWhenMatches ops o = ops :=
  List.filter_eq_self.mpr fun op hop => by
    rw [h op hop]; rfl

theorem dispatchAll_ok (ops : List Operation)
    (h : ∀ op ∈ ops, op.command ∈ commands.commandNames) :
    dispatchAll ops = .ok () := by
  induction ops with
  | nil => rfl
  | cons op rest ih =>
    simp only [dispatchAll, if_pos (h op (List.mem_cons_self _ _))]
    exact ih fun x hx => h x (List.mem_cons_of_mem _ hx)

theorem dispatchAll_unknown (ops : List Operation)
    (h : ∃ op ∈ ops, op.command ∉ commands.commandNames) :
    ∃ op, op ∈ ops ∧ op.command ∉ commands.commandNames ∧
      dispatchAll ops = .error ("Unknown command: " ++ op.command) := by
  induction ops with
  | nil => simp at h
  | cons op rest ih =>
    by_cases hc : op.command ∈ commands.commandNames
    · obtain ⟨o, ho, hco⟩ := h
      rcases List.mem_cons.mp ho with rfl | ho'
      · exact absurd hc hco
      · obtain ⟨o', h1, h2, h3⟩ := ih ⟨o, ho', hco⟩
        exact ⟨o', List.mem_cons_of_mem _ h1, h2, by
          simp only [dispatchAll, if_pos hc]; exact h3⟩
    · exact ⟨op, List.mem_cons_self _ _, hc, by
        simp only [dispatchAll, if_neg hc]⟩

theorem runSteps_success (allOps : List Operation) (behavior : ℕ → StepOutcome) :
    ∀ (rest : List Operation) (i : ℕ),
      (∀ j, i ≤ j → j < i + rest.length → (behavior j).result = Except.ok ()) →
      runSteps allOps behavior rest i =
        (successItems allOps behavior rest i, true) := by
  intro rest
  induction rest with
  | nil => intro i _; rfl
  | cons op rest ih =>
    intro i h
    have hi : (behavior i).result = Except.ok () :=
      h i (le_refl i) (by simp)
    have hlen : (op :: rest).length = rest.length + 1 := rfl
    have hrec := ih (i + 1) fun j hj1 hj2 => h j (by omega) (by rw [hlen]; omega)
    simp only [runSteps, successItems, hi, hrec, List.cons_append]

theorem successItems_filter_isState (allOps : List Operation)
    (behavior : ℕ → StepOutcome) :
    ∀ (rest : List Operation) (i : ℕ),
      (outwardTrace (successItems allOps behavior rest i)).filter isState =
        (rest.enumFrom i).map fun p =>
          Event.state p.2 (action.getOperationProgress p.1 allOps) := by
  intro rest
  induction rest with
  | nil => intro i; rfl
  | cons op rest ih =>
    intro i
    simp only [successItems, outwardTrace_ev, outwardTrace_invoke,
      outwardTrace_append, outwardTrace_map_output, List.filter_cons,
      List.filter_append, output_filter_isState, List.nil_append, isState,
      List.enumFrom, List.map_cons, ih, eq_self_iff_true, if_true]

theorem successItems_end_shape (allOps : List Operation)
    (behavior : ℕ → StepOutcome) :
    ∀ (rest : List Operation) (i : ℕ),
      ∃ pre, outwardTrace (successItems allOps behavior rest i) =
          pre ++ [Event.endEv] ∧ Event.endEv ∉ pre := by
  intro rest
  induction rest with
  | nil =>
    intro i
    exact ⟨[], rfl, by simp⟩
  | cons op rest ih =>
    intro i
    obtain ⟨pre, hpre, hmem⟩ := ih (i + 1)
    refine ⟨Event.state op (action.getOperationProgress i allOps) ::
      ((behavior i).output.map OutputEvent.toEvent ++ pre), ?_, ?_⟩
    · simp only [successItems, outwardTrace_ev, outwardTrace_invoke,
        outwardTrace_append, outwardTrace_map_output, hpre, List.cons_append,
        List.append_assoc]
    · intro hmem'
      rcases List.mem_cons.mp hmem' with heq | hmem''
      · exact absurd heq.symm (by simp)
      · rcases List.mem_append.mp hmem'' with h1 | h2
        · exact output_no_endEv _ h1
        · exact hmem h2

theorem successItems_no_errorEv (allOps : List Operation)
    (behavior : ℕ → StepOutcome) :
    ∀ (rest : List Operation) (i : ℕ) (msg : String),
      Event.errorEv msg ∉ outwardTrace (successItems allOps behavior rest i) := by
  intro rest
  induction rest with
  | nil =>
    intro i msg hmem
    simp [successItems, outwardTrace] at hmem
  | cons op rest ih =>
    intro i msg hmem
    simp only [successItems, outwardTrace_ev, outwardTrace_invoke,
      outwardTrace_append, outwardTrace_map_output] at hmem
    rcases List.mem_cons.mp hmem with heq | hmem'
    · exact absurd heq (by simp)
    · rcases List.mem_append.mp hmem' with h1 | h2
      · exact output_no_errorEv _ msg h1
      · exact ih (i + 1) msg h2

theorem successItems_state_before_invoke (allOps : List Operation)
    (behavior : ℕ → StepOutcome) :
    ∀ (rest : List Operation) (i j : ℕ) (op : Operation), rest[j]? = some op →
      ∃ pre suf, successItems allOps behavior rest i =
        pre ++ Item.ev (Event.state op (action.getOperationProgress (i + j) allOps)) ::
          Item.invoke (i + j) :: suf := by
  intro rest
  induction rest with
  | nil => intro i j op h; simp at h
  | cons o rest ih =>
    intro i j op h
    cases j with
    | zero =>
      have ho : o = op := by simpa using h
      subst ho
      refine ⟨[], ((behavior i).output.map fun e => Item.ev e.toEvent) ++
        successItems allOps behavior rest (i + 1), ?_⟩
      simp [successItems]
    | succ j =>
      obtain ⟨pre, suf, hps⟩ := ih (i + 1) j op (by simpa using h)
      refine ⟨Item.ev (Event.state o (action.getOperationProgress i allOps)) ::
        Item.invoke i ::
          ((behavior i).output.map fun e => Item.ev e.toEvent) ++ pre, suf, ?_⟩
      rw [show i + (j + 1) = i + 1 + j by omega]
      simp only [successItems, hps, List.cons_append, List.append_assoc]

theorem runSteps_terminal (allOps : List Operation)
    (behavior : ℕ → StepOutcome) :
    ∀ (rest : List Operation) (i : ℕ),
      ((runSteps allOps behavior rest i).2 = true →
        ∀ msg, Event.errorEv msg ∉
          outwardTrace (runSteps allOps behavior rest i).1) ∧
      ((runSteps allOps behavior rest i).2 = false →
        Event.endEv ∉ outwardTrace (runSteps allOps behavior rest i).1) := by
  intro rest
  induction rest with
  | nil =>
    intro i
    constructor
    · intro _ msg hmem
      simp [runSteps, outwardTrace] at hmem
    · intro hfalse
      simp [runSteps] at hfalse
  | cons op rest ih =>
    intro i
    cases hr : (behavior i).result with
    | error msg' =>
      constructor
      · intro htrue
        simp [runSteps, hr] at htrue
      · intro _ hmem
        simp only [runSteps, hr, List.cons_append, outwardTrace_ev,
          outwardTrace_invoke, outwardTrace_append, outwardTrace_map_output] at hmem
        rcases List.mem_cons.mp hmem with heq | hmem'
        · exact absurd heq (by simp)
        · rcases List.mem_append.mp hmem' with h1 | h2
          · exact output_no_endEv _ h1
          · rcases List.mem_cons.mp h2 with heq' | h3
            · exact absurd heq' (by simp)
            · simp [outwardTrace_nil] at h3
    | ok u =>
      cases u
      have hih := ih (i + 1)
      constructor
      · intro htrue msg hmem
        simp only [runSteps, hr, List.cons_append, outwardTrace_ev,
          outwardTrace_invoke, outwardTrace_append, outwardTrace_map_output] at hmem
        simp only [runSteps, hr] at htrue
        rcases List.mem_cons.mp hmem with heq | hmem'
        · exact absurd heq (by simp)
        · rcases List.mem_append.mp hmem' with h1 | h2
          · exact output_no_errorEv _ msg h1
          · exact hih.1 htrue msg h2
      · intro hfalse hmem
        simp only [runSteps, hr, List.cons_append, outwardTrace_ev,
          outwardTrace_invoke, outwardTrace_append, outwardTrace_map_output] at hmem
        simp only [runSteps, hr] at hfalse
        rcases List.mem_cons.mp hmem with heq | hmem'
        · exact absurd heq (by simp)
        · rcases List.mem_append.mp hmem' with h1 | h2
          · exact output_no_endEv _ h1
          · exact hih.2 hfalse h2

/-- C1: for every list of operations with no `when` clauses whose
every step completes successfully, `execute` emits exactly one `state`
event per operation, in list order, each emitted before its
operation's promise is invoked, followed by exactly one terminal `end`
event, with zero `error` events; for the empty list this degenerates
to a single `end` event and no `state` events. -/
theorem execute_success_trace (platform image : String)
    (ops : List Operation) (options : Options) (behavior : ℕ → StepOutcome)
    (hwhen : ∀ op ∈ ops, op.when = none)
    (hcmd : ∀ op ∈ ops, op.command ∈ commands.commandNames)
    (hok : ∀ i, i < ops.length → (behavior i).result = Except.ok ()) :
    ∃ items,
      execute platform image ops options behavior = .ok (items, true) ∧
      (outwardTrace items).filter isState =
        (ops.enumFrom 0).map (fun p =>
          Event.state p.2 (action.getOperationProgress p.1 ops)) ∧
      (∀ j op, ops[j]? = some op → ∃ pre suf, items =
        pre ++ Item.ev (Event.state op (action.getOperationProgress j ops)) ::
          Item.invoke j :: suf) ∧
      (∃ pre, outwardTrace items = pre ++ [Event.endEv] ∧ Event.endEv ∉ pre) ∧
      (∀ msg, Event.errorEv msg ∉ outwardTrace items) := by
  have hmiss :=
    getMissingOptions_of_when_none ops (effectiveOptions platform options) hwhen
  have hfilter :=
    filterWhenMatches_of_when_none ops (effectiveOptions platform options) hwhen
  have hdisp : dispatchAll (utils.filterWhenMatches ops
      (effectiveOptions platform options)) = .ok () := by
    rw [hfilter]; exact dispatchAll_ok ops hcmd
  have hrun := runSteps_success ops behavior ops 0 fun j _ hj2 =>
    hok j (by omega)
  refine ⟨successItems ops behavior ops 0, ?_, ?_, ?_, ?_, ?_⟩
  · simp [execute, hmiss, hfilter, dispatchAll_ok ops hcmd, hrun]
  · exact successItems_filter_isState ops behavior ops 0
  · intro j op hj
    have hsb := successItems_state_before_invoke ops behavior ops 0 j op hj
    simpa using hsb
  · exact successItems_end_shape ops behavior ops 0
  · exact fun msg => successItems_no_errorEv ops behavior ops 0 msg

/-- Witness for C1: a concrete two-operation run with trivially
succeeding steps. -/
theorem execute_success_trace_witness :
    ∃ items,
      execute "linux" "img" sampleOps [] trivialBehavior = .ok (items, true) ∧
      (outwardTrace items).filter isState =
        (sampleOps.enumFrom 0).map (fun p =>
          Event.state p.2 (action.getOperationProgress p.1 sampleOps)) ∧
      (∀ j op, sampleOps[j]? = some op → ∃ pre suf, items =
        pre ++ Item.ev (Event.state op (action.getOperationProgress j sampleOps)) ::
          Item.invoke j :: suf) ∧
      (∃ pre, outwardTrace items = pre ++ [Event.endEv] ∧ Event.endEv ∉ pre) ∧
      (∀ msg, Event.errorEv msg ∉ outwardTrace items) :=
  execute_success_trace "linux" "img" sampleOps [] trivialBehavior
    (by decide) (by decide) (fun i _ => rfl)

/-- C4: `execute` throws synchronously (no emitter, no trace) iff
`getMissingOptions` of the operations against the effective options is
non-empty, and the thrown message lists the missing names. -/
theorem execute_missing_options (platform image : String)
    (ops : List Operation) (options : Options) (behavior : ℕ → StepOutcome) :
    ((∃ msg, execute platform image ops options behavior = .error msg) ↔
      utils.getMissingOptions ops (effectiveOptions platform options) ≠ []) ∧
    (utils.getMissingOptions ops (effectiveOptions platform options) ≠ [] →
      execute platform image ops options behavior =
        .error ("Missing options: " ++ toSentence
          (utils.getMissingOptions ops (effectiveOptions platform options)))) := by
  by_cases h : utils.getMissingOptions ops (effectiveOptions platform options) = []
  · refine ⟨⟨?_, fun hne => absurd h hne⟩, fun hne => absurd h hne⟩
    rintro ⟨msg, hmsg⟩
    exfalso
    cases hd : dispatchAll
        (utils.filterWhenMatches ops (effectiveOptions platform options)) with
    | error m => simp [execute, h, hd] at hmsg
    | ok u => cases u; simp [execute, h, hd] at hmsg
  · have hfalse :
        (utils.getMissingOptions ops (effectiveOptions platform options)).isEmpty =
          false := by
      cases hmo : utils.getMissingOptions ops (effectiveOptions platform options) with
      | nil => exact absurd hmo h
      | cons a l => rfl
    refine ⟨⟨fun _ => h, fun _ => ?_⟩, fun _ => ?_⟩
    · exact ⟨"Missing options: " ++ toSentence
        (utils.getMissingOptions ops (effectiveOptions platform options)),
        by simp [execute, hfalse]⟩
    · simp [execute, hfalse]

/-- Witness for C4: one operation requiring `foo`, options providing
only `bar`: execute throws `Missing options: foo`. -/
theorem execute_missing_options_witness :
    execute "linux" "img" opsMissing [("bar", Value.num 2)] trivialBehavior =
      .error ("Missing options: " ++ toSentence
        (utils.getMissingOptions opsMissing
          (effectiveOptions "linux" [("bar", Value.num 2)]))) ∧
    "Missing options: " ++ toSentence
        (utils.getMissingOptions opsMissing
          (effectiveOptions "linux" [("bar", Value.num 2)])) =
      "Missing options: foo" :=
  ⟨(execute_missing_options "linux" "img" opsMissing [("bar", Value.num 2)]
      trivialBehavior).2 (by decide), by decide⟩

/-- C5: a subscriber attaching to `end` after the run already
terminated reads the emitter's `ended` flag — the callback fires
immediately iff the run ended successfully (the trace contains `end`),
and never fires after an error termination. -/
theorem lateEndSubscriber (platform image : String) (ops : List Operation)
    (options : Options) (behavior : ℕ → StepOutcome)
    (items : List Item) (ended : Bool)
    (h : execute platform image ops options behavior = .ok (items, ended)) :
    (Event.endEv ∈ outwardTrace items →
      lateSubscribeInvoked ended "end" = true) ∧
    ((∃ m, Event.errorEv m ∈ outwardTrace items) →
      lateSubscribeInvoked ended "end" = false) := by
  by_cases hm :
      (utils.getMissingOptions ops (effectiveOptions platform options)).isEmpty
  · cases hd : dispatchAll
        (utils.filterWhenMatches ops (effectiveOptions platform options)) with
    | error msg =>
      have hval : execute platform image ops options behavior =
          .ok ([Item.ev (Event.errorEv msg)], false) := by
        simp [execute, hm, hd]
      rw [hval] at h
      injection h with hp
      injection hp with hitems hended
      subst hitems; subst hended
      constructor
      · intro hmem
        simp [outwardTrace] at hmem
      · intro _; rfl
    | ok u =>
      cases u
      have hval : execute platform image ops options behavior =
          .ok (runSteps
            (utils.filterWhenMatches ops (effectiveOptions platform options))
            behavior
            (utils.filterWhenMatches ops (effectiveOptions platform options)) 0) := by
        simp [execute, hm, hd]
      rw [hval] at h
      injection h with hp
      have hitems :
          (runSteps (utils.filterWhenMatches ops (effectiveOptions platform options))
              behavior
              (utils.filterWhenMatches ops (effectiveOptions platform options)) 0).1 =
            items := by rw [hp]
      have hended :
          (runSteps (utils.filterWhenMatches ops (effectiveOptions platform options))
              behavior
              (utils.filterWhenMatches ops (effectiveOptions platform options)) 0).2 =
            ended := by rw [hp]
      have hterm := runSteps_terminal
        (utils.filterWhenMatches ops (effectiveOptions platform options)) behavior
        (utils.filterWhenMatches ops (effectiveOptions platform options)) 0
      constructor
      · intro hmem
        cases hb : ended with
        | true => rfl
        | false =>
          exfalso
          refine hterm.2 ?_ ?_
          · rw [hended, hb]
          · rw [hitems]; exact hmem
      · rintro ⟨m, hmem⟩
        cases hb : ended with
        | false => rfl
        | true =>
          exfalso
          refine hterm.1 ?_ m ?_
          · rw [hended, hb]
          · rw [hitems]; exact hmem
  · exfalso
    have hm' :
        (utils.getMissingOptions ops (effectiveOptions platform options)).isEmpty =
          false := by
      revert hm
      cases (utils.getMissingOptions ops (effectiveOptions platform options)).isEmpty <;>
        simp
    simp [execute, hm'] at h

/-- Witness for C5: the empty run terminates successfully, so a late
`end` subscriber fires; its trace has no `error` event. -/
theorem lateEndSubscriber_witness :
    (Event.endEv ∈ outwardTrace [Item.ev Event.endEv] →
      lateSubscribeInvoked true "end" = true) ∧
    ((∃ m, Event.errorEv m ∈ outwardTrace [Item.ev Event.endEv]) →
      lateSubscribeInvoked true "end" = false) :=
  lateEndSubscriber "linux" "img" [] [] trivialBehavior
    [Item.ev Event.endEv] true rfl

/-- Counterexample for C6: with a valid `copy` operation followed by
an operation naming the unknown command `bogus`, the run reports the
unknown command before any step runs — the trace is the single `error`
event and contains no `state` event for the earlier `copy` operation,
contrary to the claim that all earlier operations execute and emit
their `state` events first. -/
theorem execute_unknown_counterexample :
    execute "linux" "img" opsUnknown [] trivialBehavior =
      .ok ([Item.ev (Event.errorEv "Unknown command: bogus")], false) ∧
    (outwardTrace [Item.ev (Event.errorEv "Unknown command: bogus")]).filter
        isState = [] := by
  exact ⟨rfl, rfl⟩

/-- C6 (amended): an unknown command among the filtered operations is
detected during the eager dispatch phase, before any step runs: the
run emits no `state` events at all (earlier operations do not
execute), exactly one `error` event carrying the unknown-command
error, and never an `end` event. -/
theorem execute_unknown_command (platform image : String)
    (ops : List Operation) (options : Options) (behavior : ℕ → StepOutcome)
    (hmiss : utils.getMissingOptions ops (effectiveOptions platform options) = [])
    (hop : ∃ op ∈ utils.filterWhenMatches ops (effectiveOptions platform options),
      op.command ∉ commands.commandNames) :
    ∃ op, op ∈ utils.filterWhenMatches ops (effectiveOptions platform options) ∧
      op.command ∉ commands.commandNames ∧
      execute platform image ops options behavior =
        .ok ([Item.ev (Event.errorEv ("Unknown command: " ++ op.command))],
          false) ∧
      (outwardTrace [Item.ev (Event.errorEv ("Unknown command: " ++ op.command))]).filter
          isState = [] ∧
      Event.endEv ∉
        outwardTrace [Item.ev (Event.errorEv ("Unknown command: " ++ op.command))] := by
  obtain ⟨op, h1, h2, h3⟩ := dispatchAll_unknown _ hop
  refine ⟨op, h1, h2, ?_, by simp [outwardTrace, isState, List.filter], by
    simp [outwardTrace]⟩
  simp [execute, hmiss, h3]

/-- Witness for C6 (amended): the concrete `copy`-then-`bogus` list. -/
theorem execute_unknown_command_witness :
    ∃ op, op ∈ utils.filterWhenMatches opsUnknown (effectiveOptions "linux" []) ∧
      op.command ∉ commands.commandNames ∧
      execute "linux" "img" opsUnknown [] trivialBehavior =
        .ok ([Item.ev (Event.errorEv ("Unknown command: " ++ op.command))],
          false) ∧
      (outwardTrace [Item.ev (Event.errorEv ("Unknown command: " ++ op.command))]).filter
          isState = [] ∧
      Event.endEv ∉
        outwardTrace [Item.ev (Event.errorEv ("Unknown command: " ++ op.command))] :=
  execute_unknown_command "linux" "img" opsUnknown [] trivialBehavior
    (by decide) (by decide)

end Resin
